import Mathlib

/-!
Verification development for the whatsapp-chat-intelligence repository.

Part A embeds the JavaScript scraper sources that are present under the
repository (group configuration registry, group lookup, the configuration
resolution step of group scraping, message statistics, and the message
time-range computation).

Part B embeds the deduplication-and-canonicalization engine and the search
layer.  The Python backend implementing that engine is not among the
provided source files, so those definitions are modelled from the
specification text, as marked in their doc comments.
-/

/-! ### Part A: scraper embedding (from src/scraper) -/

/-- Configuration record for one WhatsApp group, as in the object values of
the universityGroups table in src/scraper/src/config/groups.js. -/
structure GroupConfig where
  id : String
  name : String
  university : String
  categories : List String
  active : Bool
deriving DecidableEq

/-- The hardcoded module-level registry of groups from
src/scraper/src/config/groups.js.  Only the TOP_GS entry is live; the other
entries in the file are commented out. -/
def universityGroups : List (String × GroupConfig) :=
  [(("TOP_GS"),
    { id := "120363025923230723@g.us"
      name := "Top Gs"
      university := "NEU"
      categories := [("general")]
      active := true })]

/-- Model of the JavaScript String.prototype.toUpperCase applied to the
ASCII group names used as registry keys: uppercase every character. -/
def toUpperStr (s : String) : String :=
  ⟨s.data.map Char.toUpper⟩

/-- Embedding of getGroupByName from src/scraper/src/config/groups.js:
look up the uppercased name in the registry, null when absent. -/
def getGroupByName (groupName : String) : Option GroupConfig :=
  match universityGroups.find? (fun p => p.1 == toUpperStr groupName) with
  | some p => some p.2
  | none => none

/-- Error thrown by UniversityGroupScraper.scrapeGroup when the group name
does not resolve in the configuration registry
(src/scraper/src/scrapers/group-scraper.js lines 95 to 98). -/
inductive ScrapeError where
  | groupNotFound (groupName : String)
deriving DecidableEq

/-- Embedding of the configuration-resolution step of
UniversityGroupScraper.scrapeGroup (group-scraper.js lines 95 to 98): the
group name must resolve via getGroupByName, otherwise the call throws.
The subsequent chat fetch and file write are input and output against the
WhatsApp client and the filesystem and are outside the embedding. -/
def scrapeGroupLookup (groupName : String) : Except ScrapeError GroupConfig :=
  match getGroupByName groupName with
  | none => Except.error (ScrapeError.groupNotFound groupName)
  | some cfg => Except.ok cfg

/-- One scraped message record, with the fields produced by
UniversityGroupScraper.extractMessages (group-scraper.js lines 171 to 187).
Timestamps are epoch seconds as delivered by whatsapp-web.js. -/
structure ScrapedMessage where
  id : String
  timestamp : Nat
  author : String
  body : String
  type : String
  hasMedia : Bool
deriving DecidableEq

/-- Lexicographic comparison of character lists, modelling how the default
JavaScript Array.prototype.sort comparator compares the string forms of two
array elements. -/
def strLeB : List Char → List Char → Bool
  | [], _ => true
  | _ :: _, [] => false
  | a :: as, b :: bs => if a = b then strLeB as bs else decide (a < b)

/-- Comparator used by the default JavaScript sort on an array of numbers:
the numbers are converted to their decimal strings and the strings are
compared lexicographically. -/
def jsLeNat (a b : Nat) : Bool :=
  strLeB (Nat.repr a).data (Nat.repr b).data

/-- Insertion of an element into a list sorted by the given comparator. -/
def insertSorted (le : Nat → Nat → Bool) (x : Nat) : List Nat → List Nat
  | [] => [x]
  | y :: ys => if le x y then x :: y :: ys else y :: insertSorted le x ys

/-- Model of the default JavaScript Array.prototype.sort on an array of
numbers: insertion sort under the string comparator jsLeNat.  The default
comparator is total, so the sorted order is the unique order it induces. -/
def jsDefaultSort (l : List Nat) : List Nat :=
  l.foldr (insertSorted jsLeNat) []

/-- Result record of UniversityGroupScraper.getMessageTimeRange.  The two
fields hold the epoch-second timestamps selected by the source; the source
renders each of them as new Date(ts * 1000).toISOString(), an injective and
strictly monotone rendering that the embedding leaves symbolic. -/
structure TimeRange where
  earliest : Nat
  latest : Nat
deriving DecidableEq

/-- Embedding of UniversityGroupScraper.getMessageTimeRange
(group-scraper.js lines 205 to 213): null on an empty message list,
otherwise the timestamps are sorted with the default JavaScript sort and
the first and last entries of the sorted array are returned. -/
def getMessageTimeRange (messages : List ScrapedMessage) : Option TimeRange :=
  match jsDefaultSort (messages.map (fun m => m.timestamp)) with
  | [] => none
  | t :: ts => some { earliest := t, latest := ts.getLastD t }

/-- One step of the type-counting object update in
UniversityGroupScraper.countMessageTypes: increment the entry for the key
when present, otherwise append a new entry with count one.  JavaScript
object keys keep insertion order for the non-numeric type names involved. -/
def bumpType : List (String × Nat) → String → List (String × Nat)
  | [], t => [(t, 1)]
  | (k, n) :: rest, t =>
      if k == t then (k, n + 1) :: rest else (k, n) :: bumpType rest t

/-- Embedding of UniversityGroupScraper.countMessageTypes
(group-scraper.js lines 197 to 203). -/
def countMessageTypes (messages : List ScrapedMessage) : List (String × Nat) :=
  messages.foldl (fun types m => bumpType types m.type) []

/-- Statistics record returned by UniversityGroupScraper.generateStatistics. -/
structure Statistics where
  totalMessages : Nat
  messageTypes : List (String × Nat)
  timeRange : Option TimeRange
deriving DecidableEq

/-- Embedding of UniversityGroupScraper.generateStatistics
(group-scraper.js lines 189 to 195). -/
def generateStatistics (messages : List ScrapedMessage) : Statistics :=
  { totalMessages := messages.length
    messageTypes := countMessageTypes messages
    timeRange := getMessageTimeRange messages }

/-- The configuration value of the one live registry entry. -/
def topGsConfig : GroupConfig :=
  { id := "120363025923230723@g.us"
    name := "Top Gs"
    university := "NEU"
    categories := [("general")]
    active := true }

/-- Concrete message list exhibiting the time-range computation: two chat
messages with epoch-second timestamps nine and ten. -/
def msgsTsBug : List ScrapedMessage :=
  [{ id := "m1", timestamp := 9, author := "a@c.us", body := "first",
     type := "chat", hasMedia := false },
   { id := "m2", timestamp := 10, author := "b@c.us", body := "second",
     type := "chat", hasMedia := false }]

/-! ### Part B: deduplication, canonicalization and search core

The backend implementing this engine is not among the provided source
files; every definition below is modelled from the specification, as its
doc comment records. -/

/-- Modelled from the spec: helper of the Normalizer.  Splits a character
list into its maximal whitespace-free words, dropping all whitespace; the
accumulator holds the current word reversed. -/
def wordsAux : List Char → List Char → List (List Char)
  | [], acc => if acc = [] then [] else [acc.reverse]
  | c :: cs, acc =>
      if c.isWhitespace then
        if acc = [] then wordsAux cs [] else acc.reverse :: wordsAux cs []
      else wordsAux cs (c :: acc)

/-- Modelled from the spec: the whitespace-separated words of the
lowercased raw text, the basis of normalization (spec section 4.1). -/
def tokensOf (s : String) : List (List Char) :=
  wordsAux (s.data.map Char.toLower) []

/-- Modelled from the spec (section 4.1): normalization strips leading and
trailing whitespace, collapses internal whitespace runs to one space, and
lowercases. -/
def normalizeText (s : String) : String :=
  ⟨List.intercalate [' '] (tokensOf s)⟩

/-- Modelled from the spec (section 4.1): the fingerprint is a
deterministic collision-resistant digest of the normalized text.  The
digest is modelled as the normalized text itself behind an injective tag,
with the explicitly tagged category for text that is empty after
normalization. -/
def fingerprint (s : String) : String :=
  let n := normalizeText s
  if n = "" then ("fp-empty") else ("fp:") ++ n

/-- Modelled from the spec: the Normalizer contract
normalize(rawText) -> (normalizedText, fingerprint).  The source name
normalize is taken by the ambient library, hence the suffix. -/
def normalizeMsg (s : String) : String × String :=
  (normalizeText s, fingerprint s)

/-- Modelled from the spec (section 3): one ingested occurrence, with its
group, sender, original and normalized text, fingerprint, timestamp,
stable per-message source key, and the per-group occurrence count at the
time the row was created. -/
structure RawMessage where
  groupId : String
  senderId : String
  rawText : String
  normText : String
  fingerprint : String
  sourceKey : String
  timestamp : Nat
  occurrence : Nat
deriving DecidableEq

/-- Modelled from the spec (section 3): the global identity of one
fingerprint, with representative normalized text, total occurrence count
across groups, the set of groups where it was seen, and the first-seen and
last-seen timestamps. -/
structure CanonicalMessage where
  fingerprint : String
  repText : String
  totalCount : Nat
  firstSeen : Nat
  lastSeen : Nat
  groups : List String
deriving DecidableEq

instance : Inhabited CanonicalMessage :=
  ⟨{ fingerprint := "", repText := "", totalCount := 0,
     firstSeen := 0, lastSeen := 0, groups := [] }⟩

/-- Modelled from the spec (section 6): the persisted state, a RawMessage
table in ingestion order and a CanonicalMessage table keyed by
fingerprint. -/
structure Store where
  raws : List RawMessage
  canon : List CanonicalMessage
deriving DecidableEq

/-- Modelled from the spec: the per-group occurrence count of a
fingerprint in a group, as derived from the RawMessage rows. -/
def perGroupCount (raws : List RawMessage) (g fp : String) : Nat :=
  (raws.filter (fun r => r.groupId == g && r.fingerprint == fp)).length

/-- Modelled from the spec (section 4.3): the set of groups containing a
fingerprint, in order of appearance of the raw rows. -/
def groupsSeen (raws : List RawMessage) (fp : String) : List String :=
  ((raws.filter (fun r => r.fingerprint == fp)).map (fun r => r.groupId)).dedup

/-- Modelled from the spec: the set of all groups appearing in the
RawMessage table. -/
def allGroups (raws : List RawMessage) : List String :=
  (raws.map (fun r => r.groupId)).dedup

/-- Modelled from the spec (section 4.3): recompute the CanonicalMessage
of a fingerprint from the raw rows.  Total count is the sum over the
groups containing the fingerprint of their per-group occurrence counts,
the representative text is the normalized text of the earliest-seen
occurrence, and first-seen and last-seen are the extreme timestamps.
None when no raw row carries the fingerprint. -/
def canonFor (raws : List RawMessage) (fp : String) : Option CanonicalMessage :=
  match raws.filter (fun r => r.fingerprint == fp) with
  | [] => none
  | o :: os =>
      some
        { fingerprint := fp
          repText := o.normText
          totalCount :=
            ((groupsSeen raws fp).map (fun g => perGroupCount raws g fp)).sum
          firstSeen := os.foldl (fun m r => Nat.min m r.timestamp) o.timestamp
          lastSeen := os.foldl (fun m r => Nat.max m r.timestamp) o.timestamp
          groups := groupsSeen raws fp }

/-- Modelled from the spec (section 4.3): reconcile(fingerprint) replaces
the CanonicalMessage row of the fingerprint with the recomputed one; a
fingerprint with no raw occurrence leaves the store unchanged. -/
def reconcile (st : Store) (fp : String) : Store :=
  match canonFor st.raws fp with
  | none => st
  | some c =>
      { st with canon := st.canon.filter (fun c' => c'.fingerprint != fp) ++ [c] }

/-- Modelled from the spec (section 6): lookup in the RawMessage table by
its key, the pair of group identifier and source key. -/
def findRaw (raws : List RawMessage) (g sk : String) : Option RawMessage :=
  raws.find? (fun r => r.groupId == g && r.sourceKey == sk)

/-- Modelled from the spec (section 7): the error surfaced when a source
key maps to a different fingerprint than previously recorded. -/
inductive IngestError where
  | conflict (groupId sourceKey oldFp newFp : String)
deriving DecidableEq

/-- Boolean success test for an ingestion result. -/
def exceptIsOk (e : Except IngestError RawMessage) : Bool :=
  match e with
  | Except.ok _ => true
  | Except.error _ => false

/-- Modelled from the spec (section 4.2): the Group-Scoped Deduplicator
contract ingest(groupId, senderId, rawText, timestamp, sourceKey).  When
the (groupId, sourceKey) key already holds a row with the same
fingerprint the call is an idempotent no-op returning the existing record;
when it holds a different fingerprint a ConflictError is surfaced and the
store is untouched; otherwise a new row is created with the incremented
per-group occurrence count and the Canonical Aggregator is triggered for
the fingerprint. -/
def ingest (st : Store) (g sender text : String) (ts : Nat) (sk : String) :
    Except IngestError RawMessage × Store :=
  let fp := fingerprint text
  match findRaw st.raws g sk with
  | some r =>
      if r.fingerprint == fp then (Except.ok r, st)
      else (Except.error (IngestError.conflict g sk r.fingerprint fp), st)
  | none =>
      let r : RawMessage :=
        { groupId := g
          senderId := sender
          rawText := text
          normText := normalizeText text
          fingerprint := fp
          sourceKey := sk
          timestamp := ts
          occurrence := perGroupCount st.raws g fp + 1 }
      (Except.ok r, reconcile { st with raws := st.raws ++ [r] } fp)

/-- Modelled from the spec (sections 4.3 and 6): backfillCanonical in full
rebuild mode reconciles each distinct fingerprint of the RawMessage table
exactly once per run; the batching limit only bounds transaction sizes and
is not part of the state semantics. -/
def backfillCanonical (st : Store) : Store :=
  ((st.raws.map (fun r => r.fingerprint)).dedup).foldl reconcile st

/-- Modelled from the spec (section 4.4): the tokenized form of a text is
its list of lowercased whitespace-separated terms. -/
def tokenize (s : String) : List String :=
  (tokensOf s).map (fun cs => ⟨cs⟩)

/-- Modelled from the spec (section 4.4): the term-frequency score of a
document against the query terms. -/
def termScore (qts dts : List String) : Nat :=
  (dts.map (fun t => if qts.contains t then 1 else 0)).sum

/-- Modelled from the spec (section 4.4): the ranking order, by descending
score with ties broken by recency of last-seen. -/
def rankBefore (qts : List String) (a b : CanonicalMessage) : Bool :=
  let sa := termScore qts (tokenize a.repText)
  let sb := termScore qts (tokenize b.repText)
  if sa = sb then decide (b.lastSeen ≤ a.lastSeen) else decide (sb < sa)

/-- Insertion of a canonical record into a ranked list. -/
def rankInsert (le : CanonicalMessage → CanonicalMessage → Bool)
    (x : CanonicalMessage) : List CanonicalMessage → List CanonicalMessage
  | [] => [x]
  | y :: ys => if le x y then x :: y :: ys else y :: rankInsert le x ys

/-- Ranking sort over the candidate records. -/
def rankSort (le : CanonicalMessage → CanonicalMessage → Bool)
    (l : List CanonicalMessage) : List CanonicalMessage :=
  l.foldr (rankInsert le) []

/-- Modelled from the spec (section 4.4): the optional time-window filter
on a query, selecting records whose last-seen is not before the bound. -/
def matchesAfter (afterT : Option Nat) (c : CanonicalMessage) : Bool :=
  match afterT with
  | none => true
  | some t => decide (t ≤ c.lastSeen)

/-- Modelled from the spec (sections 4.4 and 6): the deduplicated query
surface searchCanonicalTop(query, after, limit).  Matching canonical
records are ranked by rankBefore and truncated to the limit; a query is a
read and returns the store unchanged. -/
def searchCanonicalTop (st : Store) (q : String) (afterT : Option Nat)
    (limit : Nat) : List CanonicalMessage × Store :=
  let qts := tokenize q
  let cands := st.canon.filter
    (fun c => matchesAfter afterT c && decide (0 < termScore qts (tokenize c.repText)))
  ((rankSort (rankBefore qts) cands).take limit, st)

/-- Store well-formedness: the (groupId, sourceKey) pair is a key of the
RawMessage table, so no two rows share it (spec section 6). -/
def WFStore (st : Store) : Prop :=
  st.raws.Pairwise (fun a b => a.groupId ≠ b.groupId ∨ a.sourceKey ≠ b.sourceKey)

/-- Concrete raw record produced by ingesting the text hi into group A
from the empty store. -/
def rawHiA : RawMessage :=
  { groupId := "A", senderId := "alice", rawText := "hi", normText := "hi",
    fingerprint := "fp:hi", sourceKey := "k1", timestamp := 1, occurrence := 1 }

/-- Concrete canonical record for the fingerprint of hi after that
ingestion. -/
def canonHi : CanonicalMessage :=
  { fingerprint := "fp:hi", repText := "hi", totalCount := 1,
    firstSeen := 1, lastSeen := 1, groups := [("A")] }

/-- Concrete store reached by ingesting hi into group A once. -/
def storeHiA : Store :=
  { raws := [rawHiA], canon := [canonHi] }

/-- Concrete store holding the same fingerprint in two groups. -/
def storeTwoGroups : Store :=
  { raws :=
      [{ groupId := "A", senderId := "u1", rawText := "hi", normText := "hi",
         fingerprint := "fp:hi", sourceKey := "a1", timestamp := 3, occurrence := 1 },
       { groupId := "B", senderId := "u2", rawText := "HI", normText := "hi",
         fingerprint := "fp:hi", sourceKey := "b1", timestamp := 5, occurrence := 1 }]
    canon := [] }

/-! ### Theorems -/

/-- Helper: the total of per-type counts grows by one at each bumpType
step, since exactly one bucket is touched. -/
theorem sum_bumpType (l : List (String × Nat)) (t : String) :
    ((bumpType l t).map Prod.snd).sum = (l.map Prod.snd).sum + 1 := by
  induction l with
  | nil => simp [bumpType]
  | cons p rest ih =>
      obtain ⟨k, n⟩ := p
      by_cases h : (k == t) = true
      · simp [bumpType, h]
        omega
      · simp [bumpType, h, ih]
        omega

/-- Helper: folding the type counter over a message list adds the length
of the list to the total of the accumulator. -/
theorem sum_foldl_bumpType (messages : List ScrapedMessage) :
    ∀ acc : List (String × Nat),
      ((messages.foldl (fun types m => bumpType types m.type) acc).map Prod.snd).sum
        = (acc.map Prod.snd).sum + messages.length := by
  induction messages with
  | nil => intro acc; simp
  | cons m ms ih =>
      intro acc
      rw [List.foldl_cons, ih (bumpType acc m.type), sum_bumpType]
      simp
      omega

/-- C9: for every list of messages, generateStatistics reports
totalMessages equal to the length of the list, and the per-type counts of
countMessageTypes sum to that same length, every message having
incremented exactly one bucket. -/
theorem generateStatistics_counts_conservation (messages : List ScrapedMessage) :
    (generateStatistics messages).totalMessages = messages.length ∧
    ((countMessageTypes messages).map Prod.snd).sum = messages.length := by
  refine ⟨rfl, ?_⟩
  simpa using sum_foldl_bumpType messages []

/-- C10: group lookup is case-insensitive (names whose characters agree up
to letter case resolve identically) and total (a name whose uppercased
form is not a registry key yields null rather than an exception). -/
theorem getGroupByName_case_insensitive_and_total :
    (∀ s t : String, s.data.map Char.toUpper = t.data.map Char.toUpper →
        getGroupByName s = getGroupByName t) ∧
    (∀ s : String, toUpperStr s ∉ universityGroups.map Prod.fst →
        getGroupByName s = none) := by
  constructor
  · intro s t h
    have hst : toUpperStr s = toUpperStr t := congrArg String.mk h
    simp only [getGroupByName, hst]
  · intro s h
    have hne : (("TOP_GS" : String) == toUpperStr s) = false := by
      rw [beq_eq_false_iff_ne]
      intro hc
      exact h (by simp [universityGroups, hc.symm])
    simp [getGroupByName, universityGroups, List.find?, hne]

/-- Witness for C10 at concrete inputs: two casings of the live key
resolve identically, and an unregistered name yields null. -/
theorem getGroupByName_case_insensitive_and_total_witness :
    getGroupByName ("top_gs") = getGroupByName ("Top_Gs") ∧
    getGroupByName ("WHO") = none :=
  ⟨getGroupByName_case_insensitive_and_total.1 ("top_gs") ("Top_Gs") (by decide),
   getGroupByName_case_insensitive_and_total.2 ("WHO") (by decide)⟩

/-- C7 counterexample: the scraping entry point rejects the group name
MIT_AI_HACKS, which is absent from the hardcoded registry (its entry is
commented out), showing that group identity is not treated as opaque
input. -/
theorem scrapeGroup_rejects_unconfigured_group :
    scrapeGroupLookup ("MIT_AI_HACKS")
      = Except.error (ScrapeError.groupNotFound ("MIT_AI_HACKS")) := rfl

/-- C7 amended: scrapeGroup resolves its group name against the hardcoded
module-level registry, succeeding exactly when the uppercased name is the
one live registry key and throwing the configuration error otherwise. -/
theorem scrapeGroup_requires_registry_membership (n : String) :
    scrapeGroupLookup n =
      if toUpperStr n = "TOP_GS" then Except.ok topGsConfig
      else Except.error (ScrapeError.groupNotFound n) := by
  by_cases h : toUpperStr n = "TOP_GS"
  · simp [scrapeGroupLookup, getGroupByName, universityGroups, List.find?,
      h, topGsConfig]
  · have hne : (("TOP_GS" : String) == toUpperStr n) = false := by
      rw [beq_eq_false_iff_ne]
      exact fun hc => h hc.symm
    simp [scrapeGroupLookup, getGroupByName, universityGroups, List.find?,
      h, hne]

/-- C8: evaluation of getMessageTimeRange at the failing input, two
messages with timestamps nine and ten.  The default JavaScript sort
compares the decimal strings, so the field named earliest receives the
maximum timestamp ten and the field named latest the minimum nine,
contradicting the intended minimum and maximum reading. -/
theorem getMessageTimeRange_lexicographic_sort_divergence :
    getMessageTimeRange msgsTsBug = some { earliest := 10, latest := 9 } ∧
    (msgsTsBug.map (fun m => m.timestamp)) = [9, 10] := by
  constructor <;> rfl

/-- C3: the normalizer is a pure function of its input, and raw texts
whose lowercased word sequences agree, which covers all differences of
letter case, leading or trailing whitespace, and internal whitespace run
length, receive the same normalized text and the same fingerprint. -/
theorem normalize_fingerprint_ws_case_invariant (s t : String)
    (h : tokensOf s = tokensOf t) :
    normalizeMsg s = normalizeMsg t := by
  have hn : normalizeText s = normalizeText t := by
    simp [normalizeText, h]
  simp [normalizeMsg, fingerprint, hn]

/-- Witness for C3: two texts differing in case and whitespace runs share
the normalization and the fingerprint. -/
theorem normalize_fingerprint_ws_case_invariant_witness :
    normalizeMsg ("  Hello   WORLD ") = normalizeMsg ("hello world") :=
  normalize_fingerprint_ws_case_invariant ("  Hello   WORLD ") ("hello world")
    (by decide)

/-- C6: a query is a pure read.  Issuing the same searchCanonicalTop call
twice with no intervening write returns the same ranked results, and the
store after the first query is the store before it. -/
theorem searchCanonicalTop_deterministic (st : Store) (q : String)
    (afterT : Option Nat) (limit : Nat) :
    (searchCanonicalTop (searchCanonicalTop st q afterT limit).2 q afterT limit).1
        = (searchCanonicalTop st q afterT limit).1 ∧
    (searchCanonicalTop st q afterT limit).2 = st :=
  ⟨rfl, rfl⟩

/-- C5: ingest surfaces a ConflictError exactly when the (group, source
key) slot already holds a record whose fingerprint differs from the one
computed for the incoming text, and in that case the store is returned
unchanged, never overwritten. -/
theorem ingest_conflict_characterization (st : Store) (g sender text : String)
    (ts : Nat) (sk : String) :
    (exceptIsOk (ingest st g sender text ts sk).1 = false ↔
      (findRaw st.raws g sk).any (fun r => r.fingerprint != fingerprint text) = true) ∧
    (exceptIsOk (ingest st g sender text ts sk).1 = false →
      (ingest st g sender text ts sk).2 = st) := by
  cases hf : findRaw st.raws g sk with
  | none => simp [ingest, hf, exceptIsOk]
  | some r =>
      by_cases hfp : (r.fingerprint == fingerprint text) = true
      · simp [ingest, hf, hfp, exceptIsOk]
        exact beq_iff_eq.mp hfp
      · simp [ingest, hf, hfp, exceptIsOk]
        exact fun hc => hfp (beq_iff_eq.mpr hc)

/-- Witness for C5 at a concrete conflicting input: the slot (A, k1) holds
the fingerprint of hi, the text bye computes a different fingerprint, the
call errors, and the store is unchanged. -/
theorem ingest_conflict_characterization_witness :
    (exceptIsOk (ingest storeHiA ("A") "sam" "bye" 5 ("k1")).1 = false ↔
      (findRaw storeHiA.raws ("A") ("k1")).any
        (fun r => r.fingerprint != fingerprint ("bye")) = true) ∧
    (exceptIsOk (ingest storeHiA ("A") "sam" "bye" 5 ("k1")).1 = false →
      (ingest storeHiA ("A") "sam" "bye" 5 ("k1")).2 = storeHiA) :=
  ingest_conflict_characterization storeHiA ("A") "sam" "bye" 5 ("k1")

/-- Helper: reconciliation touches only the canonical table, never the
raw rows. -/
theorem reconcile_raws (st : Store) (fp : String) :
    (reconcile st fp).raws = st.raws := by
  unfold reconcile
  cases canonFor st.raws fp <;> rfl

/-- Helper: when at most one element of a list can satisfy a predicate
and find? locates one, the filter by that predicate is exactly that
singleton. -/
theorem filter_eq_singleton_of_find? {α : Type} (p : α → Bool) (l : List α)
    (hp : l.Pairwise (fun a b => ¬(p a = true ∧ p b = true)))
    (r : α) (h : l.find? p = some r) : l.filter p = [r] := by
  induction l with
  | nil => simp at h
  | cons a l ih =>
      rw [List.pairwise_cons] at hp
      by_cases ha : p a = true
      · rw [List.find?_cons_of_pos l ha] at h
        injection h with h
        subst h
        have hnil : l.filter p = [] :=
          List.filter_eq_nil_iff.mpr (fun b hb hpb => hp.1 b hb ⟨ha, hpb⟩)
        simp [List.filter_cons_of_pos ha, hnil]
      · rw [List.find?_cons_of_neg l ha] at h
        rw [List.filter_cons_of_neg ha]
        exact ih hp.2 h

/-- C1: ingestion is idempotent on the (group, sourceKey, text) tuple.  In
a well-formed store, after a successful ingest returning record r and
store st1, re-ingesting the same tuple returns the same record r and
leaves st1 exactly unchanged, so the per-group occurrence count and the
canonical totals are untouched, and st1 holds exactly one RawMessage for
that (group, sourceKey) slot. -/
theorem ingest_idempotent_on_sourceKey (st : Store)
    (g sender sender2 text : String) (ts ts2 : Nat) (sk : String)
    (r : RawMessage) (st1 : Store) (hwf : WFStore st)
    (h : ingest st g sender text ts sk = (Except.ok r, st1)) :
    ingest st1 g sender2 text ts2 sk = (Except.ok r, st1) ∧
    st1.raws.filter (fun x => x.groupId == g && x.sourceKey == sk) = [r] := by
  have hpair : st.raws.Pairwise
      (fun a b => ¬((a.groupId == g && a.sourceKey == sk) = true ∧
                    (b.groupId == g && b.sourceKey == sk) = true)) := by
    refine hwf.imp ?_
    intro a b hab hc
    obtain ⟨hca, hcb⟩ := hc
    simp only [Bool.and_eq_true, beq_iff_eq] at hca hcb
    rcases hab with hne | hne
    · exact hne (hca.1.trans hcb.1.symm)
    · exact hne (hca.2.trans hcb.2.symm)
  cases hf : findRaw st.raws g sk with
  | some r0 =>
      by_cases hfp : (r0.fingerprint == fingerprint text) = true
      · have hok : ((Except.ok r0 : Except IngestError RawMessage), st)
            = (Except.ok r, st1) := by
          rw [← h]; simp [ingest, hf, hfp]
        injection hok with hr hst
        injection hr with hr
        subst hr
        subst hst
        constructor
        · simp [ingest, hf, hfp]
        · exact filter_eq_singleton_of_find? _ st.raws hpair r0 hf
      · have : (ingest st g sender text ts sk).1 = Except.error
            (IngestError.conflict g sk r0.fingerprint (fingerprint text)) := by
          simp [ingest, hf, hfp]
        rw [h] at this
        cases this
  | none =>
      have hstep : ingest st g sender text ts sk =
          (Except.ok
            { groupId := g, senderId := sender, rawText := text,
              normText := normalizeText text, fingerprint := fingerprint text,
              sourceKey := sk, timestamp := ts,
              occurrence := perGroupCount st.raws g (fingerprint text) + 1 },
           reconcile
             { st with raws := st.raws ++
                 [{ groupId := g, senderId := sender, rawText := text,
                    normText := normalizeText text,
                    fingerprint := fingerprint text, sourceKey := sk,
                    timestamp := ts,
                    occurrence := perGroupCount st.raws g (fingerprint text) + 1 }] }
             (fingerprint text)) := by
        simp [ingest, hf]
      rw [h] at hstep
      injection hstep with hr hst
      injection hr with hr
      replace hr := hr.symm
      replace hst := hst.symm
      have hraws : st1.raws = st.raws ++ [r] := by
        rw [← hst, reconcile_raws]
        simp [hr]
      have hnone : ∀ x ∈ st.raws, ¬(x.groupId == g && x.sourceKey == sk) = true :=
        List.find?_eq_none.mp hf
      have hpr : (r.groupId == g && r.sourceKey == sk) = true := by
        rw [← hr]; simp
      have hf2 : List.find? (fun x => x.groupId == g && x.sourceKey == sk)
          st.raws = none := hf
      have hfind1 : findRaw st1.raws g sk = some r := by
        unfold findRaw
        rw [hraws, List.find?_append, hf2, Option.none_or]
        exact List.find?_cons_of_pos [] hpr
      have hfpr : (r.fingerprint == fingerprint text) = true := by
        rw [← hr]; simp
      constructor
      · simp [ingest, hfind1, hfpr]
      · rw [hraws, List.filter_append]
        rw [List.filter_eq_nil_iff.mpr hnone]
        simp [hpr]

/-- Witness for C1: ingesting hi into group A of the empty store and then
re-ingesting the same (group, sourceKey, text) tuple returns the same
record and leaves the store exactly as it was, holding one row for the
slot. -/
theorem ingest_idempotent_on_sourceKey_witness :
    ingest storeHiA ("A") "bob" "hi" 2 ("k1") = (Except.ok rawHiA, storeHiA) ∧
    storeHiA.raws.filter (fun x => x.groupId == "A" && x.sourceKey == "k1")
      = [rawHiA] :=
  ingest_idempotent_on_sourceKey { raws := [], canon := [] }
    ("A") "alice" "bob" "hi" 1 2 ("k1") rawHiA storeHiA
    (List.Pairwise.nil) rfl

/-- Helper: sums of pointwise sums of two natural-valued maps split. -/
theorem sum_map_add_nat {α : Type} (f h : α → Nat) (l : List α) :
    (l.map (fun a => f a + h a)).sum = (l.map f).sum + (l.map h).sum := by
  induction l with
  | nil => rfl
  | cons a l ih =>
      simp [ih]
      omega

/-- Helper: over a duplicate-free list containing a, the indicator of a
sums to one. -/
theorem sum_indicator_nodup (gs : List String) (a : String)
    (hnd : gs.Nodup) (ha : a ∈ gs) :
    (gs.map (fun g => if (a == g) = true then (1 : Nat) else 0)).sum = 1 := by
  induction gs with
  | nil => cases ha
  | cons g gs ih =>
      rw [List.nodup_cons] at hnd
      rcases List.mem_cons.mp ha with h | h
      · subst h
        have hz : (gs.map (fun g' => if (a == g') = true then (1 : Nat) else 0)).sum
            = 0 := by
          apply List.sum_eq_zero
          intro x hx
          obtain ⟨g', hg', hx⟩ := List.mem_map.mp hx
          have hne : ¬(a == g') = true := by
            simp only [beq_iff_eq]
            exact fun hc => hnd.1 (hc ▸ hg')
          rw [if_neg hne] at hx
          exact hx.symm
        simp only [List.map_cons, List.sum_cons]
        rw [if_pos (beq_self_eq_true a), hz]
      · have hne : ¬(a == g) = true := by
          simp only [beq_iff_eq]
          exact fun hc => hnd.1 (hc ▸ h)
        simp only [List.map_cons, List.sum_cons]
        rw [if_neg hne, ih hnd.2 h]

/-- Helper: partition of the length of a record list by the distinct
group identifiers covering it. -/
theorem sum_groupCounts (l : List RawMessage) (gs : List String)
    (hnd : gs.Nodup) (hall : ∀ x ∈ l, x.groupId ∈ gs) :
    (gs.map (fun g => (l.filter (fun r => r.groupId == g)).length)).sum
      = l.length := by
  induction l with
  | nil => simp
  | cons x l ih =>
      have hx : x.groupId ∈ gs := hall x (by simp)
      have hall2 : ∀ y ∈ l, y.groupId ∈ gs := fun y hy => hall y (by simp [hy])
      have hmap : (fun g => (((x :: l).filter (fun r => r.groupId == g)).length))
          = fun g => (if (x.groupId == g) = true then 1 else 0)
              + (l.filter (fun r => r.groupId == g)).length := by
        funext g
        rw [List.filter_cons]
        by_cases hg : (x.groupId == g) = true
        · rw [if_pos hg, if_pos hg]
          simp [List.length_cons]
          omega
        · rw [if_neg hg, if_neg hg]
          simp
      rw [hmap, sum_map_add_nat, ih hall2, sum_indicator_nodup gs x.groupId hnd hx]
      simp [List.length_cons]
      omega

/-- Helper: the per-group occurrence count is the length of the group
slice of the fingerprint slice of the raw table. -/
theorem perGroupCount_as_filter (raws : List RawMessage) (g fp : String) :
    perGroupCount raws g fp
      = ((raws.filter (fun r => r.fingerprint == fp)).filter
          (fun r => r.groupId == g)).length := by
  unfold perGroupCount
  rw [List.filter_filter]

/-- Helper: any duplicate-free group list covering the fingerprint slice
sums its per-group counts to the size of that slice. -/
theorem sum_perGroupCount_eq_length (raws : List RawMessage) (fp : String)
    (gs : List String) (hnd : gs.Nodup)
    (hall : ∀ x ∈ raws.filter (fun r => r.fingerprint == fp), x.groupId ∈ gs) :
    (gs.map (fun g => perGroupCount raws g fp)).sum
      = (raws.filter (fun r => r.fingerprint == fp)).length := by
  have hm : (fun g => perGroupCount raws g fp)
      = fun g => ((raws.filter (fun r => r.fingerprint == fp)).filter
          (fun r => r.groupId == g)).length :=
    funext fun g => perGroupCount_as_filter raws g fp
  rw [hm]
  exact sum_groupCounts (raws.filter (fun r => r.fingerprint == fp)) gs hnd hall

/-- Helper: the canonical record computed for a fingerprint carries that
fingerprint. -/
theorem canonFor_fingerprint (raws : List RawMessage) (fp : String)
    (c : CanonicalMessage) (h : canonFor raws fp = some c) :
    c.fingerprint = fp := by
  unfold canonFor at h
  cases hfl : raws.filter (fun r => r.fingerprint == fp) with
  | nil => rw [hfl] at h; cases h
  | cons o os =>
      rw [hfl] at h
      injection h with h
      rw [← h]

/-- Helper: the total count computed by the aggregator equals the sum of
the per-group derived counts over every group of the store. -/
theorem canonFor_totalCount (raws : List RawMessage) (fp : String)
    (c : CanonicalMessage) (h : canonFor raws fp = some c) :
    c.totalCount = ((allGroups raws).map (fun g => perGroupCount raws g fp)).sum := by
  have hseen : c.totalCount
      = ((groupsSeen raws fp).map (fun g => perGroupCount raws g fp)).sum := by
    unfold canonFor at h
    cases hfl : raws.filter (fun r => r.fingerprint == fp) with
    | nil => rw [hfl] at h; cases h
    | cons o os =>
        rw [hfl] at h
        injection h with h
        rw [← h]
  have h1 : ((groupsSeen raws fp).map (fun g => perGroupCount raws g fp)).sum
      = (raws.filter (fun r => r.fingerprint == fp)).length := by
    apply sum_perGroupCount_eq_length
    · exact List.nodup_dedup _
    · intro x hx
      exact List.mem_dedup.mpr (List.mem_map.mpr ⟨x, hx, rfl⟩)
  have h2 : ((allGroups raws).map (fun g => perGroupCount raws g fp)).sum
      = (raws.filter (fun r => r.fingerprint == fp)).length := by
    apply sum_perGroupCount_eq_length
    · exact List.nodup_dedup _
    · intro x hx
      exact List.mem_dedup.mpr
        (List.mem_map.mpr ⟨x, List.mem_of_mem_filter hx, rfl⟩)
  rw [hseen, h1, ← h2]

/-- C2: after reconcile has run for a fingerprint with at least one raw
occurrence, the canonical table holds exactly one record for that
fingerprint, and its total occurrence count equals the sum over all
groups of the store of the per-group occurrence count derived from the
RawMessages sharing the fingerprint. -/
theorem reconcile_conservation (st : Store) (fp : String)
    (h : st.raws.filter (fun r => r.fingerprint == fp) ≠ []) :
    ((reconcile st fp).canon.filter (fun c => c.fingerprint == fp)).map
        (fun c => c.totalCount)
      = [((allGroups st.raws).map (fun g => perGroupCount st.raws g fp)).sum] := by
  obtain ⟨c, hc⟩ : ∃ c, canonFor st.raws fp = some c := by
    unfold canonFor
    cases hfl : st.raws.filter (fun r => r.fingerprint == fp) with
    | nil => exact absurd hfl h
    | cons o os => exact ⟨_, rfl⟩
  have hcfp : c.fingerprint = fp := canonFor_fingerprint st.raws fp c hc
  have hcanon : (reconcile st fp).canon
      = st.canon.filter (fun c' => c'.fingerprint != fp) ++ [c] := by
    unfold reconcile
    rw [hc]
  rw [hcanon, List.filter_append, List.filter_filter]
  have h1 : (st.canon.filter
      (fun a => (a.fingerprint == fp) && (a.fingerprint != fp))) = [] := by
    apply List.filter_eq_nil_iff.mpr
    intro a _
    simp [bne]
  have h2 : [c].filter (fun c' => c'.fingerprint == fp) = [c] := by
    simp [hcfp]
  rw [h1, h2]
  simp only [List.nil_append, List.map_cons, List.map_nil]
  rw [canonFor_totalCount st.raws fp c hc]

/-- Witness for C2: reconciling the fingerprint of hi in a store holding
it once in each of two groups yields one canonical record whose total is
the sum of the derived per-group counts over all groups. -/
theorem reconcile_conservation_witness :
    ((reconcile storeTwoGroups ("fp:hi")).canon.filter
        (fun c => c.fingerprint == "fp:hi")).map (fun c => c.totalCount)
      = [((allGroups storeTwoGroups.raws).map
          (fun g => perGroupCount storeTwoGroups.raws g ("fp:hi"))).sum] :=
  reconcile_conservation storeTwoGroups ("fp:hi") (by decide)

/-- Helper: a fold of reconciliations never changes the raw table. -/
theorem foldl_reconcile_raws (fps : List String) :
    ∀ st : Store, (List.foldl reconcile st fps).raws = st.raws := by
  induction fps with
  | nil => intro st; rfl
  | cons f fs ih =>
      intro st
      rw [List.foldl_cons, ih (reconcile st f), reconcile_raws]

/-- Helper: a fingerprint with a raw occurrence has a canonical value. -/
theorem canonFor_isSome (raws : List RawMessage) (f : String)
    (hex : ∃ r ∈ raws, r.fingerprint = f) :
    ∃ c, canonFor raws f = some c := by
  obtain ⟨r, hr, hrf⟩ := hex
  have hmem : r ∈ raws.filter (fun r => r.fingerprint == f) :=
    List.mem_filter.mpr ⟨hr, by rw [hrf]; exact beq_self_eq_true f⟩
  unfold canonFor
  cases hfl : raws.filter (fun r => r.fingerprint == f) with
  | nil => rw [hfl] at hmem; cases hmem
  | cons o os => exact ⟨_, rfl⟩

/-- Helper: normal form of the canonical table after reconciling a
duplicate-free list of fingerprints that all occur in the raw table; the
surviving foreign rows keep their order and the reconciled rows follow in
fingerprint order. -/
theorem foldl_reconcile_canon (fps : List String) :
    ∀ st : Store, fps.Nodup →
      (∀ f ∈ fps, ∃ r ∈ st.raws, r.fingerprint = f) →
      (List.foldl reconcile st fps).canon
        = st.canon.filter (fun c => decide (c.fingerprint ∉ fps))
          ++ fps.map (fun f => (canonFor st.raws f).getD default) := by
  induction fps with
  | nil =>
      intro st _ _
      simp
  | cons f fs ih =>
      intro st hnd hex
      rw [List.nodup_cons] at hnd
      obtain ⟨c, hc⟩ := canonFor_isSome st.raws f (hex f (by simp))
      have hstep : reconcile st f
          = { st with canon := st.canon.filter (fun c' => c'.fingerprint != f) ++ [c] } := by
        unfold reconcile
        rw [hc]
      have hex2 : ∀ f' ∈ fs, ∃ r ∈ (reconcile st f).raws, r.fingerprint = f' := by
        intro f' hf'
        rw [reconcile_raws]
        exact hex f' (by simp [hf'])
      rw [List.foldl_cons, ih (reconcile st f) hnd.2 hex2, reconcile_raws]
      rw [hstep]
      have hpred : (fun a : CanonicalMessage =>
            decide (a.fingerprint ∉ fs) && (a.fingerprint != f))
          = fun a : CanonicalMessage => decide (a.fingerprint ∉ f :: fs) := by
        funext a
        by_cases h1 : a.fingerprint = f
        · simp [h1, List.mem_cons]
        · by_cases h2 : a.fingerprint ∈ fs
          · simp [h1, h2, List.mem_cons]
          · simp [h1, h2, List.mem_cons]
      have hcf : c.fingerprint = f := canonFor_fingerprint st.raws f c hc
      have hkeep : [c].filter (fun a => decide (a.fingerprint ∉ fs)) = [c] := by
        simp [hcf, hnd.1]
      simp only [List.filter_append, List.filter_filter]
      rw [hpred, hkeep, List.map_cons, hc]
      simp [List.append_assoc]

/-- Helper: two stores with the same tables are the same store. -/
theorem store_eq_of_fields {a b : Store} (h1 : a.raws = b.raws)
    (h2 : a.canon = b.canon) : a = b := by
  cases a
  cases b
  simp_all

/-- C4: backfill is idempotent.  Running backfillCanonical a second time
over the same raw data reproduces exactly the store of the first run, so
no occurrence is ever double counted. -/
theorem backfillCanonical_idempotent (st : Store) :
    backfillCanonical (backfillCanonical st) = backfillCanonical st := by
  have hnd : ((st.raws.map (fun r => r.fingerprint)).dedup).Nodup :=
    List.nodup_dedup _
  have hex : ∀ f ∈ (st.raws.map (fun r => r.fingerprint)).dedup,
      ∃ r ∈ st.raws, r.fingerprint = f := by
    intro f hf
    obtain ⟨r, hr, hrf⟩ := List.mem_map.mp (List.mem_dedup.mp hf)
    exact ⟨r, hr, hrf⟩
  have hraws1 : (backfillCanonical st).raws = st.raws :=
    foldl_reconcile_raws _ st
  have hex1 : ∀ f ∈ (st.raws.map (fun r => r.fingerprint)).dedup,
      ∃ r ∈ (backfillCanonical st).raws, r.fingerprint = f := by
    rw [hraws1]
    exact hex
  have hcanon1 : (backfillCanonical st).canon
      = st.canon.filter
          (fun c => decide (c.fingerprint ∉ (st.raws.map (fun r => r.fingerprint)).dedup))
        ++ ((st.raws.map (fun r => r.fingerprint)).dedup).map
            (fun f => (canonFor st.raws f).getD default) :=
    foldl_reconcile_canon _ st hnd hex
  show List.foldl reconcile (backfillCanonical st)
      (((backfillCanonical st).raws.map (fun r => r.fingerprint)).dedup)
    = backfillCanonical st
  rw [hraws1]
  apply store_eq_of_fields
  · rw [foldl_reconcile_raws]
  · rw [foldl_reconcile_canon _ (backfillCanonical st) hnd hex1, hraws1, hcanon1]
    rw [List.filter_append, List.filter_filter]
    have hsame : (fun a : CanonicalMessage =>
          decide (a.fingerprint ∉ (st.raws.map (fun r => r.fingerprint)).dedup)
            && decide (a.fingerprint ∉ (st.raws.map (fun r => r.fingerprint)).dedup))
        = fun a : CanonicalMessage =>
            decide (a.fingerprint ∉ (st.raws.map (fun r => r.fingerprint)).dedup) := by
      funext a
      rw [Bool.and_self]
    rw [hsame]
    have hdrop : (((st.raws.map (fun r => r.fingerprint)).dedup).map
          (fun f => (canonFor st.raws f).getD default)).filter
          (fun c => decide (c.fingerprint ∉ (st.raws.map (fun r => r.fingerprint)).dedup))
        = [] := by
      apply List.filter_eq_nil_iff.mpr
      intro a ha
      obtain ⟨f, hf, hav⟩ := List.mem_map.mp ha
      obtain ⟨c, hc⟩ := canonFor_isSome st.raws f (hex f hf)
      have haf : a.fingerprint = f := by
        rw [← hav, hc]
        exact canonFor_fingerprint st.raws f c hc
      simp [haf, hf]
    rw [hdrop, List.append_nil]
